import Mathlib

/-!
Verification of the bias-metric engine of `model_bias_analysis.py`.

The scored dataset is modelled as a list of rows; a row carries the numeric
score of the model instance under consideration (`score`), the boolean
ground-truth label column (`label`), and the boolean subgroup-membership
column (`mem`).  Machine floats are modelled as exact rationals.  A Python
function that can return `None` (or raise) is modelled with `Option`.
-/

namespace ModelBias

/-- One row of the scored dataset, restricted to the three columns the
bias-metric computations read: the model score, the boolean label and the
boolean subgroup-membership flag. -/
structure Row where
  score : ℚ
  label : Bool
  mem : Bool
deriving DecidableEq

/-- The four confusion counts returned by `confusion_matrix_counts`. -/
structure Confusion where
  tp : ℕ
  tn : ℕ
  fp : ℕ
  fn : ℕ
deriving DecidableEq

/-- `confusion_matrix_counts(df, score_col, label_col, threshold)`: a row is
predicted positive iff `score >= threshold`. -/
def confusion_matrix_counts (df : List Row) (threshold : ℚ) : Confusion where
  tp := (df.filter (fun r => decide (threshold ≤ r.score) && r.label)).length
  tn := (df.filter (fun r => decide (r.score < threshold) && !r.label)).length
  fp := (df.filter (fun r => decide (threshold ≤ r.score) && !r.label)).length
  fn := (df.filter (fun r => decide (r.score < threshold) && r.label)).length

/-- `np.linspace(start, stop, num)`: `num` evenly spaced values from `start`
to `stop` inclusive (exact rational arithmetic). -/
def linspace (start stop : ℚ) (num : ℕ) : List ℚ :=
  (List.range num).map (fun (i : ℕ) => start + (stop - start) * (i : ℚ) / ((num - 1 : ℕ) : ℚ))

/-- The false-positive rate `fp / (fp + tn)` at one threshold. -/
def fpr_at (df : List Row) (t : ℚ) : ℚ :=
  ((confusion_matrix_counts df t).fp : ℚ) /
    (((confusion_matrix_counts df t).fp + (confusion_matrix_counts df t).tn : ℕ) : ℚ)

/-- The true-positive rate `tp / (tp + fn)` at one threshold. -/
def tpr_at (df : List Row) (t : ℚ) : ℚ :=
  ((confusion_matrix_counts df t).tp : ℚ) /
    (((confusion_matrix_counts df t).tp + (confusion_matrix_counts df t).fn : ℕ) : ℚ)

/-- `positive_rates(df, score_col, label_col, thresholds)`: sweeps the
thresholds in order, accumulating the FPR and TPR lists; returns the Python
pair `(None, None)` (modelled as `none`) as soon as any threshold yields a
confusion matrix with no actual positives or no actual negatives. -/
def positive_rates (df : List Row) : List ℚ → Option (List ℚ × List ℚ)
  | [] => some ([], [])
  | t :: ts =>
      if (confusion_matrix_counts df t).tp + (confusion_matrix_counts df t).fn = 0 ∨
         (confusion_matrix_counts df t).fp + (confusion_matrix_counts df t).tn = 0 then none
      else
        match positive_rates df ts with
        | none => none
        | some (fpr, tpr) => some (fpr_at df t :: fpr, tpr_at df t :: tpr)

/-- `np.trapz(y, x)`: trapezoidal integral of the samples `y` against the
sample points `x`. -/
def trapz : List ℚ → List ℚ → ℚ
  | y0 :: ytl, x0 :: xtl =>
      match ytl, xtl with
      | y1 :: _, x1 :: _ => (x1 - x0) * (y0 + y1) / 2 + trapz ytl xtl
      | _, _ => 0
  | _, _ => 0

/-- `squared_diff_integral(y, x) = np.trapz(np.square(np.subtract(y, x)), x)`. -/
def squared_diff_integral (y x : List ℚ) : ℚ :=
  trapz (List.zipWith (fun a b => (a - b) ^ 2) y x) x

/-- The threshold sweep used by `average_squared_equality_gap`:
`np.linspace(1.0, 0.0, num=1000)`. -/
def aseg_thresholds : List ℚ :=
  linspace 1 0 1000

/-- `df[df[subgroup]]`: the rows belonging to the subgroup. -/
def subgroup_part (df : List Row) : List Row :=
  df.filter (fun r => r.mem)

/-- `df[~df[subgroup]]`: the background rows. -/
def background_part (df : List Row) : List Row :=
  df.filter (fun r => !r.mem)

/-- `average_squared_equality_gap(df, subgroup, label, model_name)`.  Mirrors
the source: guard on an empty subgroup or background, build both ROC curves
over the fixed 1000-point sweep, check Python truthiness of the four lists,
and return the pair of trapezoidal integrals (note that the second argument
of `squared_diff_integral` is both subtracted *and* used as the integration
axis). -/
def average_squared_equality_gap (df : List Row) : Option ℚ × Option ℚ :=
  if (subgroup_part df).length = 0 ∨ (background_part df).length = 0 then (none, none)
  else
    match positive_rates (subgroup_part df) aseg_thresholds,
          positive_rates (background_part df) aseg_thresholds with
    | some (s_fpr, s_tpr), some (b_fpr, b_tpr) =>
        if s_fpr ≠ [] ∧ s_tpr ≠ [] ∧ b_fpr ≠ [] ∧ b_tpr ≠ [] then
          (some (squared_diff_integral s_tpr b_tpr),
           some (squared_diff_integral s_fpr b_fpr))
        else (none, none)
    | _, _ => (none, none)

/-- The Mann-Whitney U statistic returned by
`scipy.stats.mannwhitneyu(scores_1, scores_2, alternative='less')`:
`R1 - n1*(n1+1)/2` with mid-ranks for ties, i.e. the number of pairs in
which the first sample's value exceeds the second sample's value, counting
ties as one half. -/
def mwu_statistic (scores_1 scores_2 : List ℚ) : ℚ :=
  (scores_1.map (fun x =>
      ((scores_2.filter (fun y => decide (y < x))).length : ℚ) +
      ((scores_2.filter (fun y => decide (y = x))).length : ℚ) / 2)).sum

/-- `normalized_mwu(data1, data2, model_name)`: `None` when either sample is
empty, otherwise `u / (n1*n2)`. -/
def normalized_mwu (data1 data2 : List Row) : Option ℚ :=
  if (data1.map Row.score).length = 0 ∨ (data2.map Row.score).length = 0 then none
  else some (mwu_statistic (data1.map Row.score) (data2.map Row.score) /
               (((data1.map Row.score).length : ℚ) * ((data2.map Row.score).length : ℚ)))

/-- `compute_within_negative_label_mwu`. -/
def compute_within_negative_label_mwu (df : List Row) : Option ℚ :=
  match normalized_mwu (df.filter (fun r => !r.mem && !r.label))
      (df.filter (fun r => r.mem && !r.label)) with
  | none => none
  | some mwu => some (1/2 - mwu)

/-- `compute_within_positive_label_mwu`. -/
def compute_within_positive_label_mwu (df : List Row) : Option ℚ :=
  match normalized_mwu (df.filter (fun r => !r.mem && r.label))
      (df.filter (fun r => r.mem && r.label)) with
  | none => none
  | some mwu => some (1/2 - mwu)

/-- `compute_within_subgroup_mwu`. -/
def compute_within_subgroup_mwu (df : List Row) : Option ℚ :=
  match normalized_mwu (df.filter (fun r => r.mem && !r.label))
      (df.filter (fun r => r.mem && r.label)) with
  | none => none
  | some mwu => some (1 - mwu)

/-- `compute_cross_subgroup_negative_mwu`. -/
def compute_cross_subgroup_negative_mwu (df : List Row) : Option ℚ :=
  match normalized_mwu (df.filter (fun r => r.mem && !r.label))
      (df.filter (fun r => !r.mem && r.label)) with
  | none => none
  | some mwu => some (1 - mwu)

/-- `compute_cross_subgroup_positive_mwu`. -/
def compute_cross_subgroup_positive_mwu (df : List Row) : Option ℚ :=
  match normalized_mwu (df.filter (fun r => !r.mem && !r.label))
      (df.filter (fun r => r.mem && r.label)) with
  | none => none
  | some mwu => some (1 - mwu)

/-- `compute_normalized_pinned_auc`: `np.mean` of the three sub-metrics,
`None` if any of them is `None`. -/
def compute_normalized_pinned_auc (df : List Row) : Option ℚ :=
  match compute_within_subgroup_mwu df, compute_cross_subgroup_negative_mwu df,
        compute_cross_subgroup_positive_mwu df with
  | some within_subgroup, some cross_1, some cross_2 =>
      some ((within_subgroup + cross_1 + cross_2) / 3)
  | _, _, _ => none

/-- The scan loop of `compute_equal_error_rate`.  `min_diff` starts at
`float('inf')`, modelled by `(⊤ : ℕ∞)`; the loop updates on
`difference <= min_diff` and breaks at the first strict increase. -/
def eer_scan (df : List Row) :
    List ℚ → Option ℚ → Option Confusion → ℕ∞ → Option ℚ × Option Confusion
  | [], min_threshold, min_confusion, _ => (min_threshold, min_confusion)
  | t :: ts, min_threshold, min_confusion, min_diff =>
      if ((((confusion_matrix_counts df t).fn : ℤ) -
            ((confusion_matrix_counts df t).fp : ℤ)).natAbs : ℕ∞) ≤ min_diff then
        eer_scan df ts (some t) (some (confusion_matrix_counts df t))
          ((((confusion_matrix_counts df t).fn : ℤ) -
             ((confusion_matrix_counts df t).fp : ℤ)).natAbs : ℕ∞)
      else (min_threshold, min_confusion)

/-- `compute_equal_error_rate(df, score_col, label_col, num_thresholds)`:
scan `np.linspace(0, 1, num_thresholds)` and return the dict
`{'threshold': ..., 'confusion_matrix': ...}` modelled as a pair. -/
def compute_equal_error_rate (df : List Row) (num_thresholds : ℕ) :
    Option ℚ × Option Confusion :=
  eer_scan df (linspace 0 1 num_thresholds) none none ⊤

/-- The `i`-th threshold of the equal-error-rate sweep with `n` thresholds. -/
def eer_threshold (n i : ℕ) : ℚ :=
  0 + (1 - 0) * (i : ℚ) / ((n - 1 : ℕ) : ℚ)

/-- `abs(fn - fp)` at the `i`-th threshold of the `n`-point sweep. -/
def eer_diff (df : List Row) (n i : ℕ) : ℕ :=
  (((confusion_matrix_counts df (eer_threshold n i)).fn : ℤ) -
    ((confusion_matrix_counts df (eer_threshold n i)).fp : ℤ)).natAbs

/-- Character-wise common start of two strings (strings as `List Char`). -/
def common2 : List Char → List Char → List Char
  | a :: as_, b :: bs =>
      if a = b then a :: common2 as_ bs else []
  | _, _ => []

/-- `os.path.commonprefix`: the longest common leading fragment of a list of
strings (empty for the empty list). -/
def common_start : List (List Char) → List Char
  | [] => []
  | m :: rest => rest.foldl common2 m

/-- Python `str.strip('_')`: remove leading and trailing `'_'` characters. -/
def strip_sep (s : List Char) : List Char :=
  (((s.dropWhile (fun c => c = '_')).reverse.dropWhile (fun c => c = '_'))).reverse

/-- `model_family_name(model_names)`: raises `ValueError` (modelled as
`none`) when the common leading fragment is empty, otherwise strips `'_'`
from both ends. -/
def model_family_name (model_names : List (List Char)) : Option (List Char) :=
  if common_start model_names = [] then none
  else some (strip_sep (common_start model_names))

/-- `p` is a leading fragment of `s`. -/
def leadsIn (p s : List Char) : Prop :=
  ∃ t, p ++ t = s

/-- The per-pair error of `diff_per_subgroup_from_overall`. -/
def calculate_error (squared_error : Bool) (overall_score per_group_score : ℚ) : ℚ :=
  if squared_error then (overall_score - per_group_score) ^ 2
  else |overall_score - per_group_score|

/-- One family's sum over subgroup rows of the summed position-paired errors
(`zip` truncates to the shorter list, as in Python). -/
def diff_rows (squared_error : Bool) (overall : List ℚ) (rows : List (List ℚ)) : ℚ :=
  (rows.map (fun row => (List.zipWith (calculate_error squared_error) overall row).sum)).sum

/-- The loop of `diff_per_subgroup_from_overall` over the model families;
the Python dict keyed by family name is modelled as an ordered association
list (families with equal names are given equal scalars, so no information
is lost by keeping one entry per family). -/
def diff_families (overall_metrics : List Char → List ℚ)
    (per_subgroup_metrics : List Char → List (List ℚ))
    (metric_column : List Char) (squared_error : Bool) :
    List (List (List Char)) → Option (List (List Char × ℚ))
  | [] => some []
  | fams :: rest =>
      match model_family_name fams with
      | none => none
      | some family_name =>
          match diff_families overall_metrics per_subgroup_metrics metric_column
              squared_error rest with
          | none => none
          | some tail =>
              some ((family_name,
                diff_rows squared_error (overall_metrics family_name)
                  (per_subgroup_metrics (family_name ++ metric_column))) :: tail)

/-- `diff_per_subgroup_from_overall(overall_metrics, per_subgroup_metrics,
model_families, metric_column, squared_error)`. -/
def diff_per_subgroup_from_overall (overall_metrics : List Char → List ℚ)
    (per_subgroup_metrics : List Char → List (List ℚ))
    (model_families : List (List (List Char))) (metric_column : List Char)
    (squared_error : Bool) : Option (List (List Char × ℚ)) :=
  diff_families overall_metrics per_subgroup_metrics metric_column squared_error
    model_families

/-- `DataFrame.sample(n, random_state=25)`: a deterministic
without-replacement sample of `n` rows; raises (modelled as `none`) when
`n` exceeds the population.  The fixed seed-25 Mersenne-Twister permutation
is modelled as the identity permutation: every property proved below
(determinism, exact size, without-replacement, the failure condition)
depends only on the documented contract of the sampler, not on which rows
the pseudorandom permutation picks. -/
def df_sample (df : List Row) (n : ℕ) : Option (List Row) :=
  if n ≤ df.length then some (df.take n) else none

/-- `balanced_subgroup_subset(df, subgroup)`: the subgroup rows followed by
an equal-size sample of the background rows. -/
def balanced_subgroup_subset (df : List Row) : Option (List Row) :=
  match df_sample (background_part df) (subgroup_part df).length with
  | none => none
  | some sample => some (subgroup_part df ++ sample)

/-- A threshold at which the confusion matrix has no actual positives or no
actual negatives, invalidating the whole ROC sweep. -/
def roc_degenerate (df : List Row) (t : ℚ) : Prop :=
  (confusion_matrix_counts df t).tp + (confusion_matrix_counts df t).fn = 0 ∨
  (confusion_matrix_counts df t).fp + (confusion_matrix_counts df t).tn = 0

instance (df : List Row) (t : ℚ) : Decidable (roc_degenerate df t) :=
  inferInstanceAs (Decidable (_ ∨ _))

theorem confusion_sum (df : List Row) (t : ℚ) :
    (confusion_matrix_counts df t).tp + (confusion_matrix_counts df t).tn +
      (confusion_matrix_counts df t).fp + (confusion_matrix_counts df t).fn = df.length := by
  induction df with
  | nil => rfl
  | cons r df ih =>
      by_cases hs : t ≤ r.score
      · have hs' : ¬ r.score < t := not_lt.2 hs
        cases hl : r.label <;>
          simp_all [confusion_matrix_counts, List.filter_cons] <;> omega
      · have hs' : r.score < t := not_le.1 hs
        have hs'' : ¬ t ≤ r.score := hs
        cases hl : r.label <;>
          simp_all [confusion_matrix_counts, List.filter_cons] <;> omega

theorem tp_add_fn (df : List Row) (t : ℚ) :
    (confusion_matrix_counts df t).tp + (confusion_matrix_counts df t).fn =
      (df.filter (fun r => r.label)).length := by
  induction df with
  | nil => rfl
  | cons r df ih =>
      by_cases hs : t ≤ r.score
      · have hs' : ¬ r.score < t := not_lt.2 hs
        cases hl : r.label <;>
          simp_all [confusion_matrix_counts, List.filter_cons] <;> omega
      · have hs' : r.score < t := not_le.1 hs
        have hs'' : ¬ t ≤ r.score := hs
        cases hl : r.label <;>
          simp_all [confusion_matrix_counts, List.filter_cons] <;> omega

theorem fp_add_tn (df : List Row) (t : ℚ) :
    (confusion_matrix_counts df t).fp + (confusion_matrix_counts df t).tn =
      (df.filter (fun r => !r.label)).length := by
  induction df with
  | nil => rfl
  | cons r df ih =>
      by_cases hs : t ≤ r.score
      · have hs' : ¬ r.score < t := not_lt.2 hs
        cases hl : r.label <;>
          simp_all [confusion_matrix_counts, List.filter_cons] <;> omega
      · have hs' : r.score < t := not_le.1 hs
        have hs'' : ¬ t ≤ r.score := hs
        cases hl : r.label <;>
          simp_all [confusion_matrix_counts, List.filter_cons] <;> omega

theorem tp_add_fp (df : List Row) (t : ℚ) :
    (confusion_matrix_counts df t).tp + (confusion_matrix_counts df t).fp =
      (df.filter (fun r => decide (t ≤ r.score))).length := by
  induction df with
  | nil => rfl
  | cons r df ih =>
      by_cases hs : t ≤ r.score
      · have hs' : ¬ r.score < t := not_lt.2 hs
        cases hl : r.label <;>
          simp_all [confusion_matrix_counts, List.filter_cons] <;> omega
      · have hs' : r.score < t := not_le.1 hs
        have hs'' : ¬ t ≤ r.score := hs
        cases hl : r.label <;>
          simp_all [confusion_matrix_counts, List.filter_cons] <;> omega

theorem fn_add_tn (df : List Row) (t : ℚ) :
    (confusion_matrix_counts df t).fn + (confusion_matrix_counts df t).tn =
      (df.filter (fun r => decide (r.score < t))).length := by
  induction df with
  | nil => rfl
  | cons r df ih =>
      by_cases hs : t ≤ r.score
      · have hs' : ¬ r.score < t := not_lt.2 hs
        cases hl : r.label <;>
          simp_all [confusion_matrix_counts, List.filter_cons] <;> omega
      · have hs' : r.score < t := not_le.1 hs
        have hs'' : ¬ t ≤ r.score := hs
        cases hl : r.label <;>
          simp_all [confusion_matrix_counts, List.filter_cons] <;> omega

theorem filter_length_mono {p q : Row → Bool} (df : List Row)
    (h : ∀ r, p r = true → q r = true) :
    (df.filter p).length ≤ (df.filter q).length := by
  induction df with
  | nil => exact Nat.le_refl _
  | cons r df ih =>
      by_cases hp : p r = true
      · have hq := h r hp
        simp [List.filter_cons, hp, hq]
        omega
      · by_cases hq : q r = true <;> simp [List.filter_cons, hp, hq] <;> omega

theorem tp_antitone (df : List Row) {t t' : ℚ} (h : t' ≤ t) :
    (confusion_matrix_counts df t).tp ≤ (confusion_matrix_counts df t').tp := by
  refine filter_length_mono df ?_
  intro r hr
  simp only [Bool.and_eq_true, decide_eq_true_eq] at hr ⊢
  exact ⟨le_trans h hr.1, hr.2⟩

theorem fp_antitone (df : List Row) {t t' : ℚ} (h : t' ≤ t) :
    (confusion_matrix_counts df t).fp ≤ (confusion_matrix_counts df t').fp := by
  refine filter_length_mono df ?_
  intro r hr
  simp only [Bool.and_eq_true, decide_eq_true_eq] at hr ⊢
  exact ⟨le_trans h hr.1, hr.2⟩

theorem positive_rates_eq_none (df : List Row) (ts : List ℚ)
    (h : ∃ t ∈ ts, roc_degenerate df t) :
    positive_rates df ts = none := by
  induction ts with
  | nil => rcases h with ⟨t, ht, _⟩; cases ht
  | cons t ts ih =>
      rcases h with ⟨u, hu, hdeg⟩
      simp only [roc_degenerate] at hdeg
      rcases List.mem_cons.1 hu with rfl | hmem
      · rw [positive_rates, if_pos hdeg]
      · rw [positive_rates]
        by_cases hd : roc_degenerate df t
        · simp only [roc_degenerate] at hd
          rw [if_pos hd]
        · simp only [roc_degenerate] at hd
          rw [if_neg hd, ih ⟨u, hmem, by simp only [roc_degenerate]; exact hdeg⟩]

theorem positive_rates_eq_map (df : List Row) (ts : List ℚ)
    (h : ∀ t ∈ ts, ¬ roc_degenerate df t) :
    positive_rates df ts = some (ts.map (fpr_at df), ts.map (tpr_at df)) := by
  induction ts with
  | nil => rfl
  | cons t ts ih =>
      have hd := h t (List.mem_cons_self t ts)
      simp only [roc_degenerate] at hd
      rw [positive_rates, if_neg hd, ih (fun u hu => h u (List.mem_cons_of_mem t hu))]
      simp [List.map_cons]

theorem positive_rates_some_inv (df : List Row) (ts : List ℚ)
    (p : List ℚ × List ℚ) (h : positive_rates df ts = some p) :
    (∀ t ∈ ts, ¬ roc_degenerate df t) ∧
      p = (ts.map (fpr_at df), ts.map (tpr_at df)) := by
  by_cases hall : ∀ t ∈ ts, ¬ roc_degenerate df t
  · refine ⟨hall, ?_⟩
    rw [positive_rates_eq_map df ts hall] at h
    exact (Option.some.inj h).symm
  · exfalso
    push_neg at hall
    rw [positive_rates_eq_none df ts hall] at h
    cases h

theorem trapz_nil_left (x : List ℚ) : trapz [] x = 0 := by
  cases x <;> rfl

theorem trapz_single_left (y0 : ℚ) (x : List ℚ) : trapz [y0] x = 0 := by
  cases x with
  | nil => rfl
  | cons x0 xtl => cases xtl <;> rfl

theorem trapz_nil_right (y : List ℚ) : trapz y [] = 0 := by
  cases y <;> rfl

theorem trapz_single_right (y : List ℚ) (x0 : ℚ) : trapz y [x0] = 0 := by
  cases y with
  | nil => rfl
  | cons y0 ytl => cases ytl <;> rfl

theorem trapz_cons_cons (y0 y1 x0 x1 : ℚ) (ys xs : List ℚ) :
    trapz (y0 :: y1 :: ys) (x0 :: x1 :: xs) =
      (x1 - x0) * (y0 + y1) / 2 + trapz (y1 :: ys) (x1 :: xs) := rfl

theorem trapz_replicate_right (y : List ℚ) (n : ℕ) (c : ℚ) :
    trapz y (List.replicate n c) = 0 := by
  induction y generalizing n with
  | nil => exact trapz_nil_left _
  | cons y0 ytl ih =>
      cases ytl with
      | nil => exact trapz_single_left _ _
      | cons y1 ys =>
          cases n with
          | zero => exact trapz_nil_right _
          | succ m =>
              cases m with
              | zero => exact trapz_single_right _ _
              | succ k =>
                  rw [List.replicate_succ, List.replicate_succ, trapz_cons_cons,
                    ← List.replicate_succ, ih (k + 1)]
                  ring

theorem trapz_nonneg (y : List ℚ) : ∀ (x : List ℚ), (∀ a ∈ y, 0 ≤ a) →
    List.Chain' (fun a b => a ≤ b) x → 0 ≤ trapz y x := by
  induction y with
  | nil => intro x _ _; rw [trapz_nil_left]
  | cons y0 ytl ih =>
      intro x hy hx
      cases ytl with
      | nil => rw [trapz_single_left]
      | cons y1 ys =>
          cases x with
          | nil => rw [trapz_nil_right]
          | cons x0 xtl =>
              cases xtl with
              | nil => rw [trapz_single_right]
              | cons x1 xs =>
                  rw [trapz_cons_cons]
                  have hx01 : x0 ≤ x1 := (List.chain'_cons.1 hx).1
                  have hy0 : 0 ≤ y0 := hy _ (List.mem_cons_self _ _)
                  have hy1 : 0 ≤ y1 := hy _ (List.mem_cons_of_mem _ (List.mem_cons_self _ _))
                  have h1 : 0 ≤ (x1 - x0) * (y0 + y1) / 2 := by
                    apply div_nonneg _ (by norm_num)
                    apply mul_nonneg <;> linarith
                  have h2 := ih (x1 :: xs) (fun a ha => hy a (List.mem_cons_of_mem _ ha))
                    (List.chain'_cons.1 hx).2
                  linarith

theorem trapz_zero_left (y : List ℚ) : ∀ (x : List ℚ), (∀ a ∈ y, a = 0) →
    trapz y x = 0 := by
  induction y with
  | nil => intro x _; rw [trapz_nil_left]
  | cons y0 ytl ih =>
      intro x hy
      cases ytl with
      | nil => rw [trapz_single_left]
      | cons y1 ys =>
          cases x with
          | nil => rw [trapz_nil_right]
          | cons x0 xtl =>
              cases xtl with
              | nil => rw [trapz_single_right]
              | cons x1 xs =>
                  rw [trapz_cons_cons]
                  have hy0 : y0 = 0 := hy _ (List.mem_cons_self _ _)
                  have hy1 : y1 = 0 := hy _ (List.mem_cons_of_mem _ (List.mem_cons_self _ _))
                  rw [ih (x1 :: xs) (fun a ha => hy a (List.mem_cons_of_mem _ ha)), hy0, hy1]
                  ring

theorem trapz_split (y1 : List ℚ) : ∀ (x1 : List ℚ), y1.length = x1.length →
    ∀ (y0 x0 : ℚ) (y2 x2 : List ℚ),
    trapz (y0 :: (y1 ++ y2)) (x0 :: (x1 ++ x2)) =
      trapz (y0 :: y1) (x0 :: x1) +
        trapz (y1.getLastD y0 :: y2) (x1.getLastD x0 :: x2) := by
  induction y1 with
  | nil =>
      intro x1 hlen y0 x0 y2 x2
      have hx1 : x1 = [] := List.length_eq_zero.1 hlen.symm
      subst hx1
      rw [List.nil_append, List.nil_append, trapz_single_left, zero_add]
      rfl
  | cons y1h y1t ih =>
      intro x1 hlen y0 x0 y2 x2
      cases x1 with
      | nil => exact absurd hlen (by simp)
      | cons x1h x1t =>
          have hlen' : y1t.length = x1t.length := by simpa using hlen
          rw [List.cons_append, List.cons_append, trapz_cons_cons,
            ih x1t hlen' y1h x1h y2 x2, trapz_cons_cons,
            List.getLastD_cons, List.getLastD_cons]
          ring

theorem trapz_append_blocks (A : List ℚ) : ∀ (C : List ℚ), A.length = C.length →
    A ≠ [] → ∀ (a c : ℚ) (B D : List ℚ),
    trapz (A ++ a :: B) (C ++ c :: D) =
      trapz A C + trapz [A.getLastD 0, a] [C.getLastD 0, c] + trapz (a :: B) (c :: D) := by
  induction A with
  | nil => intro C _ hne; exact absurd rfl hne
  | cons a0 A' ih =>
      intro C hlen _ a c B D
      cases C with
      | nil => exact absurd hlen (by simp)
      | cons c0 C' =>
          have hlen' : A'.length = C'.length := by simpa using hlen
          cases A' with
          | nil =>
              have hC' : C' = [] := List.length_eq_zero.1 hlen'.symm
              subst hC'
              rw [List.singleton_append, List.singleton_append, trapz_cons_cons,
                trapz_single_left]
              have h1 : List.getLastD [a0] 0 = a0 := rfl
              have h2 : List.getLastD [c0] 0 = c0 := rfl
              rw [h1, h2, trapz_cons_cons, trapz_single_left]
              ring
          | cons a1 A'' =>
              cases C' with
              | nil => exact absurd hlen' (by simp)
              | cons c1 C'' =>
                  have ih' := ih (c1 :: C'') (by simpa using hlen') (by simp) a c B D
                  rw [List.cons_append, List.cons_append] at ih'
                  rw [List.cons_append, List.cons_append, List.cons_append,
                    List.cons_append, trapz_cons_cons, ih']
                  conv_rhs => rw [trapz_cons_cons]
                  simp only [List.getLastD_cons]
                  ring

theorem getLastD_rep (n : ℕ) (c d : ℚ) :
    (List.replicate (n + 1) c).getLastD d = c := by
  induction n generalizing d with
  | zero => rfl
  | succ m ih =>
      rw [List.replicate_succ, List.getLastD_cons]
      exact ih c

theorem getLastD_append_rep (l : List ℚ) (n : ℕ) (c d : ℚ) :
    (l ++ List.replicate (n + 1) c).getLastD d = c := by
  induction l generalizing d with
  | nil => exact getLastD_rep n c d
  | cons a l ih =>
      rw [List.cons_append, List.getLastD_cons]
      exact ih a

theorem zip_sq_self (l : List ℚ) :
    List.zipWith (fun a b => (a - b) ^ 2) l l = List.replicate l.length 0 := by
  induction l with
  | nil => rfl
  | cons a l ih =>
      rw [List.zipWith_cons_cons, ih]
      simp [List.replicate_succ]

theorem squared_diff_integral_self (l : List ℚ) : squared_diff_integral l l = 0 := by
  rw [squared_diff_integral, zip_sq_self]
  exact trapz_zero_left _ _ (fun a ha => List.eq_of_mem_replicate ha)

theorem zipWith_sq_nonneg (y x : List ℚ) :
    ∀ a ∈ List.zipWith (fun a b => (a - b) ^ 2) y x, 0 ≤ a := by
  induction y generalizing x with
  | nil => intro a ha; cases ha
  | cons y0 ytl ih =>
      intro a ha
      cases x with
      | nil => cases ha
      | cons x0 xtl =>
          rw [List.zipWith_cons_cons] at ha
          rcases List.mem_cons.1 ha with rfl | hmem
          · positivity
          · exact ih xtl a hmem

theorem length_linspace (a b : ℚ) (n : ℕ) : (linspace a b n).length = n := by
  rw [linspace, List.length_map, List.length_range]

theorem aseg_thresholds_antitone :
    List.Chain' (fun a b => b ≤ a) aseg_thresholds := by
  rw [aseg_thresholds, linspace, List.chain'_map]
  have h : (1000 : ℕ) = Nat.succ 999 := by rw [Nat.succ_eq_add_one]
  rw [h, List.chain'_range_succ]
  intro m hm
  have h999 : ((1000 - 1 : ℕ) : ℚ) = 999 := by norm_num
  simp only [h999]
  have hc : ((Nat.succ m : ℕ) : ℚ) = (m : ℚ) + 1 := by push_cast; ring
  rw [hc]
  have hm0 : (0 : ℚ) ≤ (m : ℚ) := Nat.cast_nonneg m
  linarith

/-- Nondegeneracy of the ROC confusion matrix is threshold-independent: it
only depends on the dataset having both a positive and a negative row. -/
theorem roc_degenerate_iff (df : List Row) (t : ℚ) :
    roc_degenerate df t ↔
      (df.filter (fun r => r.label)).length = 0 ∨
      (df.filter (fun r => !r.label)).length = 0 := by
  rw [roc_degenerate, tp_add_fn, fp_add_tn]

theorem tpr_at_antitone (df : List Row)
    (hpos : (df.filter (fun r => r.label)).length ≠ 0) {t t' : ℚ} (h : t' ≤ t) :
    tpr_at df t ≤ tpr_at df t' := by
  rw [tpr_at, tpr_at, tp_add_fn, tp_add_fn]
  have hL : (0 : ℚ) < ((df.filter (fun r => r.label)).length : ℚ) := by
    exact_mod_cast Nat.pos_of_ne_zero hpos
  rw [div_le_div_right hL]
  exact_mod_cast tp_antitone df h

theorem fpr_at_antitone (df : List Row)
    (hneg : (df.filter (fun r => !r.label)).length ≠ 0) {t t' : ℚ} (h : t' ≤ t) :
    fpr_at df t ≤ fpr_at df t' := by
  rw [fpr_at, fpr_at, fp_add_tn, fp_add_tn]
  have hL : (0 : ℚ) < ((df.filter (fun r => !r.label)).length : ℚ) := by
    exact_mod_cast Nat.pos_of_ne_zero hneg
  rw [div_le_div_right hL]
  exact_mod_cast fp_antitone df h

theorem cm_two (p q t : ℚ) (m1 m2 : Bool) :
    confusion_matrix_counts [⟨p, true, m1⟩, ⟨q, false, m2⟩] t =
      ⟨if t ≤ p then 1 else 0, if t ≤ q then 0 else 1,
       if t ≤ q then 1 else 0, if t ≤ p then 0 else 1⟩ := by
  by_cases h1 : t ≤ p <;> by_cases h2 : t ≤ q
  · have h1' : ¬ p < t := not_lt.2 h1
    have h2' : ¬ q < t := not_lt.2 h2
    simp [confusion_matrix_counts, h1, h2, h1', h2']
  · have h1' : ¬ p < t := not_lt.2 h1
    have h2' : q < t := not_le.1 h2
    simp [confusion_matrix_counts, h1, h2, h1', h2']
  · have h1' : p < t := not_le.1 h1
    have h2' : ¬ q < t := not_lt.2 h2
    simp [confusion_matrix_counts, h1, h2, h1', h2']
  · have h1' : p < t := not_le.1 h1
    have h2' : q < t := not_le.1 h2
    simp [confusion_matrix_counts, h1, h2, h1', h2']

theorem fpr_two (p q t : ℚ) (m1 m2 : Bool) :
    fpr_at [⟨p, true, m1⟩, ⟨q, false, m2⟩] t = if t ≤ q then 1 else 0 := by
  by_cases h : t ≤ q
  · rw [fpr_at, cm_two, if_pos h]
    norm_num [cm_two, h]
  · rw [fpr_at, cm_two, if_neg h]
    norm_num [cm_two, h]

theorem tpr_two (p q t : ℚ) (m1 m2 : Bool) :
    tpr_at [⟨p, true, m1⟩, ⟨q, false, m2⟩] t = if t ≤ p then 1 else 0 := by
  by_cases h : t ≤ p
  · rw [tpr_at, cm_two, if_pos h]
    norm_num [cm_two, h]
  · rw [tpr_at, cm_two, if_neg h]
    norm_num [cm_two, h]

theorem two_row_not_degenerate (p q t : ℚ) (m1 m2 : Bool) :
    ¬ roc_degenerate [⟨p, true, m1⟩, ⟨q, false, m2⟩] t := by
  rw [roc_degenerate_iff]
  simp [List.filter]

theorem positive_rates_two (p q : ℚ) (m1 m2 : Bool) (ts : List ℚ) :
    positive_rates [⟨p, true, m1⟩, ⟨q, false, m2⟩] ts =
      some (ts.map (fpr_at [⟨p, true, m1⟩, ⟨q, false, m2⟩]),
            ts.map (tpr_at [⟨p, true, m1⟩, ⟨q, false, m2⟩])) :=
  positive_rates_eq_map _ _ (fun t _ => two_row_not_degenerate p q t m1 m2)

theorem aseg_point_le (i : ℕ) (c : ℚ) (h : 999 - 999 * c ≤ (i : ℚ)) :
    (1 : ℚ) + (0 - 1) * (i : ℚ) / ((1000 - 1 : ℕ) : ℚ) ≤ c := by
  have h999 : ((1000 - 1 : ℕ) : ℚ) = 999 := by norm_num
  rw [h999]
  linarith

theorem aseg_point_gt (i : ℕ) (c : ℚ) (h : (i : ℚ) < 999 - 999 * c) :
    ¬ ((1 : ℚ) + (0 - 1) * (i : ℚ) / ((1000 - 1 : ℕ) : ℚ) ≤ c) := by
  have h999 : ((1000 - 1 : ℕ) : ℚ) = 999 := by norm_num
  rw [h999]
  intro hle
  linarith

theorem map_linspace_split (g : ℚ → ℚ) (n k : ℕ) (hk : k ≤ n) (v w : ℚ)
    (h1 : ∀ i : ℕ, i < k →
      g (1 + (0 - 1) * (i : ℚ) / ((n - 1 : ℕ) : ℚ)) = v)
    (h2 : ∀ i : ℕ, k ≤ i → i < n →
      g (1 + (0 - 1) * (i : ℚ) / ((n - 1 : ℕ) : ℚ)) = w) :
    (linspace 1 0 n).map g = List.replicate k v ++ List.replicate (n - k) w := by
  apply List.ext_getElem
  · rw [List.length_map, length_linspace, List.length_append,
      List.length_replicate, List.length_replicate]
    omega
  · intro i hi1 hi2
    have hin : i < n := by
      rw [List.length_map, length_linspace] at hi1
      exact hi1
    simp only [linspace, List.getElem_map, List.getElem_range]
    rw [List.getElem_append]
    by_cases hik : i < k
    · rw [dif_pos (by simpa using hik), List.getElem_replicate]
      exact h1 i hik
    · rw [dif_neg (by simpa using hik), List.getElem_replicate]
      exact h2 i (le_of_not_lt hik) hin

theorem map_linspace_const (g : ℚ → ℚ) (n : ℕ) (v : ℚ)
    (h : ∀ i : ℕ, i < n →
      g (1 + (0 - 1) * (i : ℚ) / ((n - 1 : ℕ) : ℚ)) = v) :
    (linspace 1 0 n).map g = List.replicate n v := by
  apply List.ext_getElem
  · rw [List.length_map, length_linspace, List.length_replicate]
  · intro i hi1 hi2
    have hin : i < n := by
      rw [List.length_map, length_linspace] at hi1
      exact hi1
    simp only [linspace, List.getElem_map, List.getElem_range,
      List.getElem_replicate]
    exact h i hin

theorem getElem_two_block (k m : ℕ) (v w : ℚ) (i : ℕ)
    (h : i < (List.replicate k v ++ List.replicate m w).length) :
    (List.replicate k v ++ List.replicate m w)[i] = if i < k then v else w := by
  rw [List.getElem_append]
  by_cases hik : i < k
  · rw [dif_pos (by simpa using hik), List.getElem_replicate, if_pos hik]
  · rw [dif_neg (by simpa using hik), List.getElem_replicate, if_neg hik]

/-- The dataset refuting the spec's description of the ASEG integration axis:
the subgroup holds a positive row scored 3/4 and a negative row scored 1/4,
the background a positive row scored 1/2 and a negative row scored 1/4. -/
def cdf : List Row :=
  [⟨3/4, true, true⟩, ⟨1/4, false, true⟩, ⟨1/2, true, false⟩, ⟨1/4, false, false⟩]

/-- A dataset on which the subgroup and background ROC curves coincide:
every score is 2, so every threshold of the sweep classifies every row as
positive in both halves. -/
def wdf : List Row :=
  [⟨2, true, true⟩, ⟨2, false, true⟩, ⟨2, true, false⟩, ⟨2, false, false⟩]

theorem curve_unit (p q : ℚ) (m1 m2 : Bool) (hp : 1 ≤ p) (hq : 1 ≤ q) :
    positive_rates [⟨p, true, m1⟩, ⟨q, false, m2⟩] aseg_thresholds =
      some (List.replicate 1000 1, List.replicate 1000 1) := by
  rw [positive_rates_two, aseg_thresholds]
  have hf : (linspace 1 0 1000).map (fpr_at [⟨p, true, m1⟩, ⟨q, false, m2⟩]) =
      List.replicate 1000 1 := by
    apply map_linspace_const
    intro i _
    rw [fpr_two, if_pos]
    apply aseg_point_le
    have h0 : (0 : ℚ) ≤ (i : ℚ) := Nat.cast_nonneg i
    linarith
  have ht : (linspace 1 0 1000).map (tpr_at [⟨p, true, m1⟩, ⟨q, false, m2⟩]) =
      List.replicate 1000 1 := by
    apply map_linspace_const
    intro i _
    rw [tpr_two, if_pos]
    apply aseg_point_le
    have h0 : (0 : ℚ) ≤ (i : ℚ) := Nat.cast_nonneg i
    linarith
  rw [hf, ht]

theorem cdf_sub_fpr :
    aseg_thresholds.map (fpr_at [⟨3/4, true, true⟩, ⟨1/4, false, true⟩]) =
      List.replicate 750 0 ++ List.replicate 250 1 := by
  rw [aseg_thresholds,
    show (250 : ℕ) = 1000 - 750 by norm_num]
  apply map_linspace_split _ 1000 750 (by norm_num)
  · intro i hik
    rw [fpr_two, if_neg]
    apply aseg_point_gt
    have hi : (i : ℚ) ≤ 749 := by exact_mod_cast Nat.le_of_lt_succ hik
    linarith
  · intro i hik _
    rw [fpr_two, if_pos]
    apply aseg_point_le
    have hi : (750 : ℚ) ≤ (i : ℚ) := by exact_mod_cast hik
    linarith

theorem cdf_sub_tpr :
    aseg_thresholds.map (tpr_at [⟨3/4, true, true⟩, ⟨1/4, false, true⟩]) =
      List.replicate 250 0 ++ List.replicate 750 1 := by
  rw [aseg_thresholds,
    show (750 : ℕ) = 1000 - 250 by norm_num]
  apply map_linspace_split _ 1000 250 (by norm_num)
  · intro i hik
    rw [tpr_two, if_neg]
    apply aseg_point_gt
    have hi : (i : ℚ) ≤ 249 := by exact_mod_cast Nat.le_of_lt_succ hik
    linarith
  · intro i hik _
    rw [tpr_two, if_pos]
    apply aseg_point_le
    have hi : (250 : ℚ) ≤ (i : ℚ) := by exact_mod_cast hik
    linarith

theorem cdf_bg_fpr :
    aseg_thresholds.map (fpr_at [⟨1/2, true, false⟩, ⟨1/4, false, false⟩]) =
      List.replicate 750 0 ++ List.replicate 250 1 := by
  rw [aseg_thresholds,
    show (250 : ℕ) = 1000 - 750 by norm_num]
  apply map_linspace_split _ 1000 750 (by norm_num)
  · intro i hik
    rw [fpr_two, if_neg]
    apply aseg_point_gt
    have hi : (i : ℚ) ≤ 749 := by exact_mod_cast Nat.le_of_lt_succ hik
    linarith
  · intro i hik _
    rw [fpr_two, if_pos]
    apply aseg_point_le
    have hi : (750 : ℚ) ≤ (i : ℚ) := by exact_mod_cast hik
    linarith

theorem cdf_bg_tpr :
    aseg_thresholds.map (tpr_at [⟨1/2, true, false⟩, ⟨1/4, false, false⟩]) =
      List.replicate 500 0 ++ List.replicate 500 1 := by
  rw [aseg_thresholds,
    show (500 : ℕ) = 1000 - 500 by norm_num]
  apply map_linspace_split _ 1000 500 (by norm_num)
  · intro i hik
    rw [tpr_two, if_neg]
    apply aseg_point_gt
    have hi : (i : ℚ) ≤ 499 := by exact_mod_cast Nat.le_of_lt_succ hik
    linarith
  · intro i hik _
    rw [tpr_two, if_pos]
    apply aseg_point_le
    have hi : (500 : ℚ) ≤ (i : ℚ) := by exact_mod_cast hik
    linarith

theorem rep_append_ne_nil (k m : ℕ) (hk : k ≠ 0) (v w : ℚ) :
    List.replicate k v ++ List.replicate m w ≠ [] := by
  intro h
  rcases List.append_eq_nil.1 h with ⟨h1, _⟩
  exact hk ((List.replicate_eq_nil_iff v).1 h1)

theorem two_block_length (k m : ℕ) (v w : ℚ) :
    (List.replicate k v ++ List.replicate m w).length = k + m := by
  rw [List.length_append, List.length_replicate, List.length_replicate]

theorem zip_sq_cdf :
    List.zipWith (fun a b => (a - b) ^ 2)
      (List.replicate 250 (0:ℚ) ++ List.replicate 750 1)
      (List.replicate 500 (0:ℚ) ++ List.replicate 500 1) =
      (List.replicate 250 (0:ℚ) ++ List.replicate 250 1) ++ List.replicate 500 0 := by
  apply List.ext_getElem
  · rw [List.length_zipWith, two_block_length, two_block_length,
      List.length_append, two_block_length, List.length_replicate]
    norm_num
  · intro i h1 h2
    have hi : i < 1000 := by
      rw [List.length_zipWith, two_block_length, two_block_length] at h1
      omega
    rw [List.getElem_zipWith, getElem_two_block, getElem_two_block,
      List.getElem_append]
    by_cases h500 : i < 500
    · rw [dif_pos (by rw [two_block_length]; omega), getElem_two_block]
      by_cases h250 : i < 250
      · rw [if_pos h250, if_pos (show i < 500 by omega)]
        norm_num
      · rw [if_neg h250, if_pos (show i < 500 by omega)]
        norm_num
    · rw [dif_neg (by rw [two_block_length]; omega), List.getElem_replicate,
        if_neg (show ¬ i < 250 by omega), if_neg h500]
      norm_num

theorem trapz_code_gap :
    trapz ((List.replicate 250 (0:ℚ) ++ List.replicate 250 1) ++ List.replicate 500 0)
      (List.replicate 500 (0:ℚ) ++ List.replicate 500 1) = 1/2 := by
  have hy : List.replicate 500 (0:ℚ) = 0 :: List.replicate 499 0 :=
    List.replicate_succ 0 499
  have hx : List.replicate 500 (1:ℚ) = 1 :: List.replicate 499 1 :=
    List.replicate_succ 1 499
  nth_rewrite 1 [hy]
  rw [hx]
  rw [trapz_append_blocks _ _
    (by rw [two_block_length, List.length_replicate])
    (rep_append_ne_nil 250 250 (by norm_num) 0 1)]
  have hA : (List.replicate 250 (0:ℚ) ++ List.replicate 250 1).getLastD 0 = 1 :=
    getLastD_append_rep _ 249 1 0
  have hC : (List.replicate 500 (0:ℚ)).getLastD 0 = 0 := getLastD_rep 499 0 0
  rw [hA, hC, trapz_replicate_right]
  have h3 : trapz ((0:ℚ) :: List.replicate 499 0) (1 :: List.replicate 499 1) =
      trapz (0 :: List.replicate 499 0) (List.replicate 500 1) := by
    rw [hx]
  rw [h3, trapz_replicate_right, trapz_cons_cons, trapz_single_left]
  norm_num

theorem trapz_claim_gap :
    trapz ((List.replicate 250 (0:ℚ) ++ List.replicate 250 1) ++ List.replicate 500 0)
      (List.replicate 750 (0:ℚ) ++ List.replicate 250 1) = 0 := by
  have h500 : List.replicate 500 (0:ℚ) = List.replicate 250 0 ++ List.replicate 250 0 :=
    List.replicate_add 250 250 0
  have hx : List.replicate 250 (1:ℚ) = 1 :: List.replicate 249 1 :=
    List.replicate_succ 1 249
  have hy : List.replicate 250 (0:ℚ) = 0 :: List.replicate 249 0 :=
    List.replicate_succ 0 249
  rw [h500, ← List.append_assoc]
  nth_rewrite 3 [hy]
  nth_rewrite 2 [hx]
  rw [trapz_append_blocks _ _
    (by rw [List.length_append, two_block_length, List.length_replicate,
      List.length_replicate])
    (List.append_ne_nil_of_left_ne_nil (rep_append_ne_nil 250 250 (by norm_num) 0 1) _)]
  have hA : ((List.replicate 250 (0:ℚ) ++ List.replicate 250 1) ++
      List.replicate 250 0).getLastD 0 = 0 := getLastD_append_rep _ 249 0 0
  have hC : (List.replicate 750 (0:ℚ)).getLastD 0 = 0 := getLastD_rep 749 0 0
  rw [hA, hC, trapz_replicate_right]
  have h3 : trapz ((0:ℚ) :: List.replicate 249 0) (1 :: List.replicate 249 1) =
      trapz (0 :: List.replicate 249 0) (List.replicate 250 1) := by
    rw [hx]
  rw [h3, trapz_replicate_right, trapz_cons_cons, trapz_single_left]
  norm_num

theorem aseg_thresholds_ne_nil : aseg_thresholds ≠ [] := by
  intro h
  have hlen : aseg_thresholds.length = 1000 := by
    rw [aseg_thresholds, length_linspace]
  rw [h] at hlen
  exact absurd hlen (by norm_num)

theorem subgroup_part_ne_empty_of_curve (df : List Row) (p : List ℚ × List ℚ)
    (h : positive_rates (subgroup_part df) aseg_thresholds = some p) :
    (subgroup_part df).length ≠ 0 := by
  obtain ⟨t0, ht0⟩ := List.exists_mem_of_ne_nil _ aseg_thresholds_ne_nil
  have hdeg := (positive_rates_some_inv _ _ _ h).1 t0 ht0
  intro h0
  apply hdeg
  have hnil : subgroup_part df = [] := List.length_eq_zero.1 h0
  rw [roc_degenerate_iff, hnil]
  simp

theorem background_part_ne_empty_of_curve (df : List Row) (p : List ℚ × List ℚ)
    (h : positive_rates (background_part df) aseg_thresholds = some p) :
    (background_part df).length ≠ 0 := by
  obtain ⟨t0, ht0⟩ := List.exists_mem_of_ne_nil _ aseg_thresholds_ne_nil
  have hdeg := (positive_rates_some_inv _ _ _ h).1 t0 ht0
  intro h0
  apply hdeg
  have hnil : background_part df = [] := List.length_eq_zero.1 h0
  rw [roc_degenerate_iff, hnil]
  simp

theorem length_map_aseg (f : ℚ → ℚ) : (aseg_thresholds.map f).length = 1000 := by
  rw [List.length_map, aseg_thresholds, length_linspace]

theorem positive_rates_some_parts (df : List Row) (ts : List ℚ)
    (f t : List ℚ) (h : positive_rates df ts = some (f, t)) :
    f = ts.map (fpr_at df) ∧ t = ts.map (tpr_at df) := by
  have hp := (positive_rates_some_inv _ _ _ h).2
  constructor
  · injection hp with hf ht
  · injection hp with hf ht

theorem aseg_eq_of_curves (df : List Row) (sf st bf bt : List ℚ)
    (h1 : positive_rates (subgroup_part df) aseg_thresholds = some (sf, st))
    (h2 : positive_rates (background_part df) aseg_thresholds = some (bf, bt)) :
    average_squared_equality_gap df =
      (some (squared_diff_integral st bt), some (squared_diff_integral sf bf)) := by
  have hS := subgroup_part_ne_empty_of_curve df _ h1
  have hB := background_part_ne_empty_of_curve df _ h2
  obtain ⟨hsf, hst⟩ := positive_rates_some_parts _ _ _ _ h1
  obtain ⟨hbf, hbt⟩ := positive_rates_some_parts _ _ _ _ h2
  have hne : ∀ l : List ℚ, l.length = 1000 → l ≠ [] := by
    intro l hl hnil
    rw [hnil] at hl
    exact absurd hl (by norm_num)
  rw [average_squared_equality_gap, if_neg (by push_neg; exact ⟨hS, hB⟩), h1, h2]
  show (if sf ≠ [] ∧ st ≠ [] ∧ bf ≠ [] ∧ bt ≠ [] then
      (some (squared_diff_integral st bt), some (squared_diff_integral sf bf))
    else (none, none)) = _
  rw [if_pos ⟨hne sf (by rw [hsf]; exact length_map_aseg _),
    hne st (by rw [hst]; exact length_map_aseg _),
    hne bf (by rw [hbf]; exact length_map_aseg _),
    hne bt (by rw [hbt]; exact length_map_aseg _)⟩]

theorem aseg_none_of_invalid (df : List Row)
    (h : positive_rates (subgroup_part df) aseg_thresholds = none ∨
      positive_rates (background_part df) aseg_thresholds = none) :
    average_squared_equality_gap df = (none, none) := by
  by_cases h0 : (subgroup_part df).length = 0 ∨ (background_part df).length = 0
  · rw [average_squared_equality_gap, if_pos h0]
  · rw [average_squared_equality_gap, if_neg h0]
    rcases hS : positive_rates (subgroup_part df) aseg_thresholds with _ | pS
    · rcases hB : positive_rates (background_part df) aseg_thresholds with _ | pB
      · rfl
      · obtain ⟨f2, t2⟩ := pB
        rfl
    · obtain ⟨f1, t1⟩ := pS
      rcases hB : positive_rates (background_part df) aseg_thresholds with _ | pB
      · rfl
      · rcases h with h | h
        · rw [hS] at h; cases h
        · rw [hB] at h; cases h

set_option maxRecDepth 8000 in
theorem curve_chain_tpr (df : List Row)
    (h : ∀ t ∈ aseg_thresholds, ¬ roc_degenerate df t) :
    List.Chain' (fun a b => a ≤ b) (aseg_thresholds.map (tpr_at df)) := by
  obtain ⟨t0, ht0⟩ := List.exists_mem_of_ne_nil _ aseg_thresholds_ne_nil
  have hdeg := h t0 ht0
  rw [roc_degenerate_iff] at hdeg
  push_neg at hdeg
  rw [List.chain'_map]
  exact List.Chain'.imp (fun a b hba => tpr_at_antitone df hdeg.1 hba)
    aseg_thresholds_antitone

set_option maxRecDepth 8000 in
theorem curve_chain_fpr (df : List Row)
    (h : ∀ t ∈ aseg_thresholds, ¬ roc_degenerate df t) :
    List.Chain' (fun a b => a ≤ b) (aseg_thresholds.map (fpr_at df)) := by
  obtain ⟨t0, ht0⟩ := List.exists_mem_of_ne_nil _ aseg_thresholds_ne_nil
  have hdeg := h t0 ht0
  rw [roc_degenerate_iff] at hdeg
  push_neg at hdeg
  rw [List.chain'_map]
  exact List.Chain'.imp (fun a b hba => fpr_at_antitone df hdeg.2 hba)
    aseg_thresholds_antitone

theorem cdf_sub_curve :
    positive_rates (subgroup_part cdf) aseg_thresholds =
      some (List.replicate 750 0 ++ List.replicate 250 1,
            List.replicate 250 0 ++ List.replicate 750 1) := by
  have h : subgroup_part cdf = [⟨3/4, true, true⟩, ⟨1/4, false, true⟩] := rfl
  rw [h, positive_rates_two, cdf_sub_fpr, cdf_sub_tpr]

theorem cdf_bg_curve :
    positive_rates (background_part cdf) aseg_thresholds =
      some (List.replicate 750 0 ++ List.replicate 250 1,
            List.replicate 500 0 ++ List.replicate 500 1) := by
  have h : background_part cdf = [⟨1/2, true, false⟩, ⟨1/4, false, false⟩] := rfl
  rw [h, positive_rates_two, cdf_bg_fpr, cdf_bg_tpr]

theorem wdf_sub_curve :
    positive_rates (subgroup_part wdf) aseg_thresholds =
      some (List.replicate 1000 1, List.replicate 1000 1) := by
  have h : subgroup_part wdf = [⟨2, true, true⟩, ⟨2, false, true⟩] := rfl
  rw [h]
  exact curve_unit 2 2 true true (by norm_num) (by norm_num)

theorem wdf_bg_curve :
    positive_rates (background_part wdf) aseg_thresholds =
      some (List.replicate 1000 1, List.replicate 1000 1) := by
  have h : background_part wdf = [⟨2, true, false⟩, ⟨2, false, false⟩] := rfl
  rw [h]
  exact curve_unit 2 2 false false (by norm_num) (by norm_num)

theorem aseg_cdf : average_squared_equality_gap cdf = (some (1/2), some 0) := by
  rw [aseg_eq_of_curves cdf _ _ _ _ cdf_sub_curve cdf_bg_curve,
    squared_diff_integral_self]
  rw [squared_diff_integral, zip_sq_cdf, trapz_code_gap]

/-- C1 (amended): when both the subgroup and the background ROC curves over
the fixed 1000-point sweep are valid, `average_squared_equality_gap` returns
the pair whose positive gap is the trapezoidal integral of the squared
pointwise difference of the TPR sequences taken with respect to the
*background TPR* sequence (not the FPR sequence, as the original claim
said), and whose negative gap is the trapezoidal integral of the squared
pointwise difference of the FPR sequences taken with respect to the
background FPR sequence; it returns `(undefined, undefined)` whenever either
curve is invalid.  `squared_diff_integral y x` integrates `(y - x)²` against
the axis `x`. -/
theorem average_squared_equality_gap_spec (df : List Row) :
    (∀ sf st bf bt : List ℚ,
        positive_rates (subgroup_part df) aseg_thresholds = some (sf, st) →
        positive_rates (background_part df) aseg_thresholds = some (bf, bt) →
        average_squared_equality_gap df =
          (some (squared_diff_integral st bt), some (squared_diff_integral sf bf))) ∧
    ((positive_rates (subgroup_part df) aseg_thresholds = none ∨
        positive_rates (background_part df) aseg_thresholds = none) →
      average_squared_equality_gap df = (none, none)) :=
  ⟨fun sf st bf bt h1 h2 => aseg_eq_of_curves df sf st bf bt h1 h2,
   fun h => aseg_none_of_invalid df h⟩

/-- Witness for C1 at the concrete dataset `wdf`, whose two ROC curves are
both valid and constant. -/
theorem average_squared_equality_gap_spec_witness :
    average_squared_equality_gap wdf =
      (some (squared_diff_integral (List.replicate 1000 1) (List.replicate 1000 1)),
       some (squared_diff_integral (List.replicate 1000 1) (List.replicate 1000 1))) :=
  (average_squared_equality_gap_spec wdf).1 _ _ _ _ wdf_sub_curve wdf_bg_curve

/-- C1 counterexample: on `cdf` both curves are valid, the code's positive
gap is `1/2` (the integral of the squared TPR difference taken with respect
to the *background TPR* sequence), while the trapezoidal integral of the
squared TPR difference taken with respect to the FPR sequence — which is
what the claim asserts the positive gap equals; subgroup and background FPR
sequences coincide on this dataset, so both readings of "the FPR sequence"
agree — is `0`. -/
theorem average_squared_equality_gap_cex :
    positive_rates (subgroup_part cdf) aseg_thresholds =
      some (List.replicate 750 0 ++ List.replicate 250 1,
            List.replicate 250 0 ++ List.replicate 750 1) ∧
    positive_rates (background_part cdf) aseg_thresholds =
      some (List.replicate 750 0 ++ List.replicate 250 1,
            List.replicate 500 0 ++ List.replicate 500 1) ∧
    (average_squared_equality_gap cdf).1 = some (1/2) ∧
    trapz (List.zipWith (fun a b => (a - b) ^ 2)
        (List.replicate 250 (0:ℚ) ++ List.replicate 750 1)
        (List.replicate 500 (0:ℚ) ++ List.replicate 500 1))
      (List.replicate 750 (0:ℚ) ++ List.replicate 250 1) = 0 ∧
    (average_squared_equality_gap cdf).1 ≠
      some (trapz (List.zipWith (fun a b => (a - b) ^ 2)
          (List.replicate 250 (0:ℚ) ++ List.replicate 750 1)
          (List.replicate 500 (0:ℚ) ++ List.replicate 500 1))
        (List.replicate 750 (0:ℚ) ++ List.replicate 250 1)) := by
  refine ⟨cdf_sub_curve, cdf_bg_curve, ?_, ?_, ?_⟩
  · rw [aseg_cdf]
  · rw [zip_sq_cdf]
    exact trapz_claim_gap
  · rw [aseg_cdf, zip_sq_cdf, trapz_claim_gap]
    intro hcontra
    have h := Option.some.inj hcontra
    norm_num at h

set_option maxRecDepth 8000 in
/-- C8: whenever `average_squared_equality_gap` returns defined values, both
gaps are nonnegative (the integrand is a square and the integration axis is
monotone along the threshold sweep); and when the subgroup and background
ROC curves are pointwise identical, both gaps are exactly `0`. -/
theorem aseg_nonneg_spec :
    (∀ (df : List Row) (p q : ℚ),
        average_squared_equality_gap df = (some p, some q) → 0 ≤ p ∧ 0 ≤ q) ∧
    (∀ (df : List Row) (f t : List ℚ),
        positive_rates (subgroup_part df) aseg_thresholds = some (f, t) →
        positive_rates (background_part df) aseg_thresholds = some (f, t) →
        average_squared_equality_gap df = (some 0, some 0)) := by
  constructor
  · intro df p q h
    rcases hS : positive_rates (subgroup_part df) aseg_thresholds with _ | pS
    · rw [aseg_none_of_invalid df (Or.inl hS)] at h
      injection h with h1 h2
      exact Option.noConfusion h1
    · obtain ⟨sf, st⟩ := pS
      rcases hB : positive_rates (background_part df) aseg_thresholds with _ | pB
      · rw [aseg_none_of_invalid df (Or.inr hB)] at h
        injection h with h1 h2
        exact Option.noConfusion h1
      · obtain ⟨bf, bt⟩ := pB
        rw [aseg_eq_of_curves df sf st bf bt hS hB] at h
        injection h with h1 h2
        have hp := Option.some.inj h1
        have hq := Option.some.inj h2
        obtain ⟨hbf, hbt⟩ := positive_rates_some_parts _ _ _ _ hB
        have hall := (positive_rates_some_inv _ _ _ hB).1
        constructor
        · rw [← hp, squared_diff_integral]
          exact trapz_nonneg _ _ (zipWith_sq_nonneg st bt)
            (by rw [hbt]; exact curve_chain_tpr _ hall)
        · rw [← hq, squared_diff_integral]
          exact trapz_nonneg _ _ (zipWith_sq_nonneg sf bf)
            (by rw [hbf]; exact curve_chain_fpr _ hall)
  · intro df f t h1 h2
    rw [aseg_eq_of_curves df f t f t h1 h2, squared_diff_integral_self,
      squared_diff_integral_self]

/-- Witness for C8 at the concrete dataset `wdf`: the two curves coincide,
the gaps are `(0, 0)`, and both are nonnegative. -/
theorem aseg_nonneg_spec_witness :
    average_squared_equality_gap wdf = (some 0, some 0) ∧
      (0:ℚ) ≤ 0 ∧ (0:ℚ) ≤ 0 := by
  have h := aseg_nonneg_spec.2 wdf (List.replicate 1000 1) (List.replicate 1000 1)
    wdf_sub_curve wdf_bg_curve
  exact ⟨h, aseg_nonneg_spec.1 wdf 0 0 h⟩

theorem normalized_mwu_eq_none_iff (data1 data2 : List Row) :
    normalized_mwu data1 data2 = none ↔ data1 = [] ∨ data2 = [] := by
  rw [normalized_mwu]
  by_cases h : (data1.map Row.score).length = 0 ∨ (data2.map Row.score).length = 0
  · rw [if_pos h]
    simp only [List.length_map, List.length_eq_zero] at h
    exact iff_of_true rfl h
  · rw [if_neg h]
    simp only [List.length_map, List.length_eq_zero] at h
    exact iff_of_false (fun hc => Option.noConfusion hc) h

theorem normalized_mwu_eq_some (data1 data2 : List Row)
    (h1 : data1 ≠ []) (h2 : data2 ≠ []) :
    normalized_mwu data1 data2 =
      some (mwu_statistic (data1.map Row.score) (data2.map Row.score) /
        ((data1.length : ℚ) * (data2.length : ℚ))) := by
  rw [normalized_mwu, if_neg]
  · simp only [List.length_map]
  · simp only [List.length_map, List.length_eq_zero]
    rintro (h | h)
    · exact h1 h
    · exact h2 h

theorem mwu_variant_none_iff (A B : List Row) (c : ℚ) :
    (match normalized_mwu A B with
      | none => none
      | some mwu => some (c - mwu)) = (none : Option ℚ) ↔ A = [] ∨ B = [] := by
  by_cases h : A = [] ∨ B = []
  · rw [(normalized_mwu_eq_none_iff A B).2 h]
    exact iff_of_true rfl h
  · have h1 : A ≠ [] := fun ha => h (Or.inl ha)
    have h2 : B ≠ [] := fun hb => h (Or.inr hb)
    rw [normalized_mwu_eq_some A B h1 h2]
    exact iff_of_false (fun hc => Option.noConfusion hc) h

theorem mwu_variant_some (A B : List Row) (c : ℚ) (h1 : A ≠ []) (h2 : B ≠ []) :
    (match normalized_mwu A B with
      | none => none
      | some mwu => some (c - mwu)) =
      some (c - mwu_statistic (A.map Row.score) (B.map Row.score) /
        ((A.length : ℚ) * (B.length : ℚ))) := by
  rw [normalized_mwu_eq_some A B h1 h2]

/-- C2: each of the five Mann-Whitney variants selects exactly the stated
label/subgroup-conditioned partitions of the score column, returns
`0.5 - U/(|A||B|)` for the two within-label variants and `1 - U/(|A||B|)`
for the within-subgroup and both cross-subgroup variants, where `U` is the
Mann-Whitney statistic of `mannwhitneyu(A, B, alternative='less')` (the
number of pairs in which the `A` value exceeds the `B` value, ties counted
one half), and is undefined exactly when either of its two partitions is
empty. -/
theorem mwu_variants_spec (df : List Row) :
    ((compute_within_negative_label_mwu df = none ↔
        df.filter (fun r => !r.mem && !r.label) = [] ∨
        df.filter (fun r => r.mem && !r.label) = []) ∧
      (df.filter (fun r => !r.mem && !r.label) ≠ [] →
        df.filter (fun r => r.mem && !r.label) ≠ [] →
        compute_within_negative_label_mwu df =
          some (1/2 -
            mwu_statistic ((df.filter (fun r => !r.mem && !r.label)).map Row.score)
              ((df.filter (fun r => r.mem && !r.label)).map Row.score) /
            (((df.filter (fun r => !r.mem && !r.label)).length : ℚ) *
              ((df.filter (fun r => r.mem && !r.label)).length : ℚ))))) ∧
    ((compute_within_positive_label_mwu df = none ↔
        df.filter (fun r => !r.mem && r.label) = [] ∨
        df.filter (fun r => r.mem && r.label) = []) ∧
      (df.filter (fun r => !r.mem && r.label) ≠ [] →
        df.filter (fun r => r.mem && r.label) ≠ [] →
        compute_within_positive_label_mwu df =
          some (1/2 -
            mwu_statistic ((df.filter (fun r => !r.mem && r.label)).map Row.score)
              ((df.filter (fun r => r.mem && r.label)).map Row.score) /
            (((df.filter (fun r => !r.mem && r.label)).length : ℚ) *
              ((df.filter (fun r => r.mem && r.label)).length : ℚ))))) ∧
    ((compute_within_subgroup_mwu df = none ↔
        df.filter (fun r => r.mem && !r.label) = [] ∨
        df.filter (fun r => r.mem && r.label) = []) ∧
      (df.filter (fun r => r.mem && !r.label) ≠ [] →
        df.filter (fun r => r.mem && r.label) ≠ [] →
        compute_within_subgroup_mwu df =
          some (1 -
            mwu_statistic ((df.filter (fun r => r.mem && !r.label)).map Row.score)
              ((df.filter (fun r => r.mem && r.label)).map Row.score) /
            (((df.filter (fun r => r.mem && !r.label)).length : ℚ) *
              ((df.filter (fun r => r.mem && r.label)).length : ℚ))))) ∧
    ((compute_cross_subgroup_negative_mwu df = none ↔
        df.filter (fun r => r.mem && !r.label) = [] ∨
        df.filter (fun r => !r.mem && r.label) = []) ∧
      (df.filter (fun r => r.mem && !r.label) ≠ [] →
        df.filter (fun r => !r.mem && r.label) ≠ [] →
        compute_cross_subgroup_negative_mwu df =
          some (1 -
            mwu_statistic ((df.filter (fun r => r.mem && !r.label)).map Row.score)
              ((df.filter (fun r => !r.mem && r.label)).map Row.score) /
            (((df.filter (fun r => r.mem && !r.label)).length : ℚ) *
              ((df.filter (fun r => !r.mem && r.label)).length : ℚ))))) ∧
    ((compute_cross_subgroup_positive_mwu df = none ↔
        df.filter (fun r => !r.mem && !r.label) = [] ∨
        df.filter (fun r => r.mem && r.label) = []) ∧
      (df.filter (fun r => !r.mem && !r.label) ≠ [] →
        df.filter (fun r => r.mem && r.label) ≠ [] →
        compute_cross_subgroup_positive_mwu df =
          some (1 -
            mwu_statistic ((df.filter (fun r => !r.mem && !r.label)).map Row.score)
              ((df.filter (fun r => r.mem && r.label)).map Row.score) /
            (((df.filter (fun r => !r.mem && !r.label)).length : ℚ) *
              ((df.filter (fun r => r.mem && r.label)).length : ℚ))))) :=
  ⟨⟨mwu_variant_none_iff _ _ _, fun h1 h2 => mwu_variant_some _ _ _ h1 h2⟩,
   ⟨mwu_variant_none_iff _ _ _, fun h1 h2 => mwu_variant_some _ _ _ h1 h2⟩,
   ⟨mwu_variant_none_iff _ _ _, fun h1 h2 => mwu_variant_some _ _ _ h1 h2⟩,
   ⟨mwu_variant_none_iff _ _ _, fun h1 h2 => mwu_variant_some _ _ _ h1 h2⟩,
   ⟨mwu_variant_none_iff _ _ _, fun h1 h2 => mwu_variant_some _ _ _ h1 h2⟩⟩

/-- C3: `compute_normalized_pinned_auc` is the arithmetic mean of the
within-subgroup, cross-subgroup-negative and cross-subgroup-positive
variants, and is undefined as soon as any of the three is undefined. -/
theorem compute_normalized_pinned_auc_spec (df : List Row) :
    (∀ a b c : ℚ, compute_within_subgroup_mwu df = some a →
        compute_cross_subgroup_negative_mwu df = some b →
        compute_cross_subgroup_positive_mwu df = some c →
        compute_normalized_pinned_auc df = some ((a + b + c) / 3)) ∧
    ((compute_within_subgroup_mwu df = none ∨
        compute_cross_subgroup_negative_mwu df = none ∨
        compute_cross_subgroup_positive_mwu df = none) →
      compute_normalized_pinned_auc df = none) := by
  constructor
  · intro a b c ha hb hc
    rw [compute_normalized_pinned_auc, ha, hb, hc]
  · intro h
    rw [compute_normalized_pinned_auc]
    rcases hws : compute_within_subgroup_mwu df with _ | a
    · rfl
    · rcases hcn : compute_cross_subgroup_negative_mwu df with _ | b
      · rfl
      · rcases hcp : compute_cross_subgroup_positive_mwu df with _ | c
        · rfl
        · rcases h with h | h | h
          · rw [hws] at h
            cases h
          · rw [hcn] at h
            cases h
          · rw [hcp] at h
            cases h

/-- C4: `positive_rates` returns the fully-undefined result whenever any
threshold of the sweep yields a confusion matrix with no actual positives or
no actual negatives, and otherwise returns the pair of FPR/TPR sequences of
the same length as — and aligned with — the threshold sequence. -/
theorem positive_rates_spec (df : List Row) (thresholds : List ℚ) :
    ((∃ t ∈ thresholds, roc_degenerate df t) → positive_rates df thresholds = none) ∧
    ((∀ t ∈ thresholds, ¬ roc_degenerate df t) →
      positive_rates df thresholds =
        some (thresholds.map (fpr_at df), thresholds.map (tpr_at df))) ∧
    (∀ fpr tpr, positive_rates df thresholds = some (fpr, tpr) →
      fpr.length = thresholds.length ∧ tpr.length = thresholds.length) := by
  refine ⟨positive_rates_eq_none df thresholds, positive_rates_eq_map df thresholds,
    fun fpr tpr h => ?_⟩
  obtain ⟨hf, ht⟩ := positive_rates_some_parts df thresholds fpr tpr h
  rw [hf, ht, List.length_map, List.length_map]
  exact ⟨rfl, rfl⟩

/-- C7: the four confusion counts (nonnegative by construction, being list
lengths in `ℕ`) partition the dataset: they sum to the row count, the
predicted-positive side `tp + fp` counts exactly the rows with
`score ≥ threshold` (inclusive boundary), and the predicted-negative side
`fn + tn` counts exactly the rows with `score < threshold`. -/
theorem confusion_matrix_counts_spec (df : List Row) (t : ℚ) :
    (confusion_matrix_counts df t).tp + (confusion_matrix_counts df t).tn +
        (confusion_matrix_counts df t).fp + (confusion_matrix_counts df t).fn =
      df.length ∧
    (confusion_matrix_counts df t).tp + (confusion_matrix_counts df t).fp =
        (df.filter (fun r => decide (t ≤ r.score))).length ∧
    (confusion_matrix_counts df t).fn + (confusion_matrix_counts df t).tn =
        (df.filter (fun r => decide (r.score < t))).length :=
  ⟨confusion_sum df t, tp_add_fp df t, fn_add_tn df t⟩

theorem eer_scan_cons (df : List Row) (t : ℚ) (ts : List ℚ) (mt : Option ℚ)
    (mc : Option Confusion) (md : ℕ∞) :
    eer_scan df (t :: ts) mt mc md =
      if ((((confusion_matrix_counts df t).fn : ℤ) -
            ((confusion_matrix_counts df t).fp : ℤ)).natAbs : ℕ∞) ≤ md then
        eer_scan df ts (some t) (some (confusion_matrix_counts df t))
          ((((confusion_matrix_counts df t).fn : ℤ) -
             ((confusion_matrix_counts df t).fp : ℤ)).natAbs : ℕ∞)
      else (mt, mc) := rfl

theorem eer_diff_fold (df : List Row) (n i : ℕ) :
    (((confusion_matrix_counts df (eer_threshold n i)).fn : ℤ) -
      ((confusion_matrix_counts df (eer_threshold n i)).fp : ℤ)).natAbs =
    eer_diff df n i := rfl

theorem eer_scan_run (df : List Row) (n k : ℕ) (hk : k + 2 ≤ n)
    (hchain : ∀ i, i < k → eer_diff df n (i + 1) ≤ eer_diff df n i)
    (hbreak : eer_diff df n k < eer_diff df n (k + 1)) :
    ∀ (d a : ℕ), a ≤ k → k - a = d →
      eer_scan df ((List.range (n - a - 1)).map (fun j => eer_threshold n (a + 1 + j)))
        (some (eer_threshold n a)) (some (confusion_matrix_counts df (eer_threshold n a)))
        ((eer_diff df n a : ℕ∞)) =
      (some (eer_threshold n k),
       some (confusion_matrix_counts df (eer_threshold n k))) := by
  intro d
  induction d with
  | zero =>
      intro a ha hd
      have hak : a = k := by omega
      subst hak
      obtain ⟨m, hm⟩ : ∃ m, n - a - 1 = m + 1 := ⟨n - a - 2, by omega⟩
      rw [hm, List.range_succ_eq_map, List.map_cons]
      have hhead : eer_threshold n (a + 1 + 0) = eer_threshold n (a + 1) := rfl
      rw [hhead, eer_scan_cons, eer_diff_fold, if_neg]
      rw [not_le]
      exact Nat.cast_lt.2 hbreak
  | succ δ ih =>
      intro a ha hd
      have hak : a < k := by omega
      obtain ⟨m, hm⟩ : ∃ m, n - a - 1 = m + 1 := ⟨n - a - 2, by omega⟩
      rw [hm, List.range_succ_eq_map, List.map_cons]
      have hhead : eer_threshold n (a + 1 + 0) = eer_threshold n (a + 1) := rfl
      rw [hhead, eer_scan_cons, eer_diff_fold,
        if_pos (Nat.cast_le.2 (hchain a hak))]
      rw [List.map_map]
      have hm2 : m = n - (a + 1) - 1 := by omega
      have hfun : ∀ j ∈ List.range m,
          ((fun j => eer_threshold n (a + 1 + j)) ∘ Nat.succ) j =
          eer_threshold n ((a + 1) + 1 + j) := by
        intro j _
        show eer_threshold n (a + 1 + (j + 1)) = eer_threshold n ((a + 1) + 1 + j)
        congr 1
        omega
      rw [List.map_congr_left hfun, hm2]
      exact ih (a + 1) (by omega) (by omega)

/-- C5: `compute_equal_error_rate` scans the `n` evenly spaced thresholds in
ascending order, keeps updating the selected threshold while the current
`|fn - fp|` difference is at most the running minimum (so ties move the
selection to the later, higher threshold), stops at the first strict
increase, and returns the selected threshold with its confusion record: if
the differences are non-increasing up to index `k` and strictly increase at
index `k+1`, the result is the `k`-th threshold `k/(n-1)` and its confusion
matrix.  In particular (see the witness) a dataset whose difference curve
strictly decreases to `FN = FP` at threshold `0.5` and strictly diverges
after it yields threshold `0.5`. -/
theorem compute_equal_error_rate_spec (df : List Row) (n k : ℕ) (hk : k + 2 ≤ n)
    (hchain : ∀ i, i < k → eer_diff df n (i + 1) ≤ eer_diff df n i)
    (hbreak : eer_diff df n k < eer_diff df n (k + 1)) :
    compute_equal_error_rate df n =
      (some (eer_threshold n k),
       some (confusion_matrix_counts df (eer_threshold n k))) := by
  rw [compute_equal_error_rate]
  have hlin : linspace 0 1 n = (List.range n).map (eer_threshold n) := rfl
  rw [hlin]
  have h0 : List.range n = 0 :: (List.range (n - 1)).map Nat.succ := by
    conv_lhs => rw [show n = (n - 1) + 1 by omega]
    rw [List.range_succ_eq_map]
  rw [h0, List.map_cons, List.map_map, eer_scan_cons, if_pos le_top]
  have hfun : ∀ j ∈ List.range (n - 1),
      (eer_threshold n ∘ Nat.succ) j = eer_threshold n (0 + 1 + j) := by
    intro j _
    show eer_threshold n (j + 1) = eer_threshold n (0 + 1 + j)
    congr 1
    omega
  rw [List.map_congr_left hfun]
  have hn1 : n - 1 = n - 0 - 1 := by omega
  rw [hn1]
  exact eer_scan_run df n k hk hchain hbreak k 0 (Nat.zero_le k) (by omega)

theorem calculate_error_eq (squared_error : Bool) :
    calculate_error squared_error = fun overall_score per_group_score =>
      if squared_error then (overall_score - per_group_score) ^ 2
      else |overall_score - per_group_score| := rfl

theorem diff_families_eq (overall_metrics : List Char → List ℚ)
    (per_subgroup_metrics : List Char → List (List ℚ))
    (metric_column : List Char) (squared_error : Bool) :
    ∀ (mf : List (List (List Char))), (∀ fams ∈ mf, model_family_name fams ≠ none) →
      diff_families overall_metrics per_subgroup_metrics metric_column squared_error mf =
        some (mf.map (fun fams =>
          ((model_family_name fams).getD [],
            diff_rows squared_error
              (overall_metrics ((model_family_name fams).getD []))
              (per_subgroup_metrics
                ((model_family_name fams).getD [] ++ metric_column))))) := by
  intro mf
  induction mf with
  | nil => intro _; rfl
  | cons fams rest ih =>
      intro h
      obtain ⟨name, hname⟩ :=
        Option.ne_none_iff_exists'.1 (h fams (List.mem_cons_self _ _))
      rw [diff_families, hname, ih (fun f hf => h f (List.mem_cons_of_mem _ hf)),
        List.map_cons, hname]
      rfl

/-- C6: for every overall-metrics map, per-subgroup metrics table, family
list and error flag (provided every family has a well-defined name, the
fail-fast precondition), `diff_per_subgroup_from_overall` returns one scalar
per model family: the sum, over all subgroup rows and all position-paired
model instances, of `(overall - subgroup)²` when the squared-error flag is
set and `|overall - subgroup|` otherwise. -/
theorem diff_per_subgroup_from_overall_spec
    (overall_metrics : List Char → List ℚ)
    (per_subgroup_metrics : List Char → List (List ℚ))
    (model_families : List (List (List Char))) (metric_column : List Char)
    (squared_error : Bool)
    (h : ∀ fams ∈ model_families, model_family_name fams ≠ none) :
    diff_per_subgroup_from_overall overall_metrics per_subgroup_metrics
        model_families metric_column squared_error =
      some (model_families.map (fun fams =>
        ((model_family_name fams).getD [],
          ((per_subgroup_metrics ((model_family_name fams).getD [] ++ metric_column)).map
            (fun row => (List.zipWith
              (fun overall_score per_group_score =>
                if squared_error then (overall_score - per_group_score) ^ 2
                else |overall_score - per_group_score|)
              (overall_metrics ((model_family_name fams).getD [])) row).sum)).sum))) := by
  rw [diff_per_subgroup_from_overall, diff_families_eq overall_metrics
    per_subgroup_metrics metric_column squared_error model_families h]
  apply congrArg
  apply List.map_congr_left
  intro fams _
  simp only [diff_rows, calculate_error_eq]

theorem leadsIn_refl (l : List Char) : leadsIn l l :=
  ⟨[], List.append_nil l⟩

theorem leadsIn_trans {a b c : List Char} (h1 : leadsIn a b) (h2 : leadsIn b c) :
    leadsIn a c := by
  obtain ⟨t1, ht1⟩ := h1
  obtain ⟨t2, ht2⟩ := h2
  exact ⟨t1 ++ t2, by rw [← List.append_assoc, ht1, ht2]⟩

theorem common2_leads_left : ∀ a b : List Char, leadsIn (common2 a b) a := by
  intro a
  induction a with
  | nil => intro b; exact ⟨[], rfl⟩
  | cons c a' ih =>
      intro b
      cases b with
      | nil => exact ⟨c :: a', rfl⟩
      | cons d b' =>
          rw [common2]
          by_cases hcd : c = d
          · rw [if_pos hcd]
            obtain ⟨t, ht⟩ := ih b'
            exact ⟨t, by rw [List.cons_append, ht]⟩
          · rw [if_neg hcd]
            exact ⟨c :: a', rfl⟩

theorem common2_leads_right : ∀ a b : List Char, leadsIn (common2 a b) b := by
  intro a
  induction a with
  | nil => intro b; exact ⟨b, rfl⟩
  | cons c a' ih =>
      intro b
      cases b with
      | nil => exact ⟨[], rfl⟩
      | cons d b' =>
          rw [common2]
          by_cases hcd : c = d
          · rw [if_pos hcd]
            obtain ⟨t, ht⟩ := ih b'
            exact ⟨t, by rw [List.cons_append, ht, hcd]⟩
          · rw [if_neg hcd]
            exact ⟨d :: b', rfl⟩

theorem leads_common2 : ∀ (p a b : List Char),
    leadsIn p a → leadsIn p b → leadsIn p (common2 a b) := by
  intro p
  induction p with
  | nil => intro a b _ _; exact ⟨common2 a b, rfl⟩
  | cons c p' ih =>
      intro a b ha hb
      obtain ⟨t1, ht1⟩ := ha
      obtain ⟨t2, ht2⟩ := hb
      rw [List.cons_append] at ht1 ht2
      subst ht1
      subst ht2
      rw [common2, if_pos rfl]
      obtain ⟨u, hu⟩ := ih (p' ++ t1) (p' ++ t2) ⟨t1, rfl⟩ ⟨t2, rfl⟩
      exact ⟨u, by rw [List.cons_append, hu]⟩

theorem foldl_common_leads (rest : List (List Char)) :
    ∀ acc : List Char, leadsIn (rest.foldl common2 acc) acc ∧
      ∀ s ∈ rest, leadsIn (rest.foldl common2 acc) s := by
  induction rest with
  | nil =>
      intro acc
      exact ⟨leadsIn_refl acc, fun s hs => absurd hs (List.not_mem_nil s)⟩
  | cons x rest' ih =>
      intro acc
      rw [List.foldl_cons]
      obtain ⟨h1, h2⟩ := ih (common2 acc x)
      refine ⟨leadsIn_trans h1 (common2_leads_left acc x), ?_⟩
      intro s hs
      rcases List.mem_cons.1 hs with rfl | hs'
      · exact leadsIn_trans h1 (common2_leads_right acc s)
      · exact h2 s hs'

theorem foldl_common_maximal (rest : List (List Char)) :
    ∀ (acc p : List Char), leadsIn p acc → (∀ s ∈ rest, leadsIn p s) →
      leadsIn p (rest.foldl common2 acc) := by
  induction rest with
  | nil => intro acc p hp _; exact hp
  | cons x rest' ih =>
      intro acc p hp hall
      rw [List.foldl_cons]
      exact ih (common2 acc x) p
        (leads_common2 p acc x hp (hall x (List.mem_cons_self _ _)))
        (fun s hs => hall s (List.mem_cons_of_mem _ hs))

theorem strip_sep_eq_nil_iff (s : List Char) :
    strip_sep s = [] ↔ ∀ c ∈ s, c = '_' := by
  rw [strip_sep]
  constructor
  · intro h
    have h1 : (s.dropWhile (fun c => c = '_')).reverse.dropWhile
        (fun c => c = '_') = [] := List.reverse_eq_nil_iff.1 h
    have h2 : ∀ c ∈ (s.dropWhile (fun c => c = '_')).reverse, c = '_' := by
      intro c hc
      have := (List.dropWhile_eq_nil_iff.1 h1) c hc
      exact of_decide_eq_true this
    intro c hc
    rw [← List.takeWhile_append_dropWhile (fun c => decide (c = '_')) s] at hc
    rcases List.mem_append.1 hc with hc1 | hc2
    · exact of_decide_eq_true (List.mem_takeWhile_imp (p := fun c => decide (c = '_')) hc1)
    · exact h2 c (List.mem_reverse.2 hc2)
  · intro h
    have h1 : s.dropWhile (fun c => c = '_') = [] :=
      List.dropWhile_eq_nil_iff.2 (fun c hc => decide_eq_true (h c hc))
    rw [h1]
    rfl

/-- C9 counterexample: the model names "_a" and "_b" share the non-empty
common leading fragment "_", so `model_family_name` raises no error, yet the
returned family name — the common fragment stripped of '_' — is empty,
contradicting the claim that the returned family name is always non-empty. -/
theorem model_family_name_cex :
    common_start [['_', 'a'], ['_', 'b']] ≠ [] ∧
    model_family_name [['_', 'a'], ['_', 'b']] = some [] := by
  constructor
  · decide
  · decide

/-- C9 (amended): `model_family_name` fails fast (raises, modelled as
`none`) exactly when the longest common leading fragment of the names is
empty, and otherwise returns that fragment trimmed of '_' separators —
which is the longest common leading fragment of the names (parts three and
four), and which is empty, rather than non-empty as the original claim
said, precisely when the common fragment consists solely of separator
characters (part five). -/
theorem model_family_name_spec (model_names : List (List Char))
    (h : model_names ≠ []) :
    (common_start model_names = [] → model_family_name model_names = none) ∧
    (common_start model_names ≠ [] →
      model_family_name model_names = some (strip_sep (common_start model_names))) ∧
    (∀ s ∈ model_names, leadsIn (common_start model_names) s) ∧
    (∀ p, (∀ s ∈ model_names, leadsIn p s) →
      leadsIn p (common_start model_names)) ∧
    (strip_sep (common_start model_names) = [] ↔
      ∀ c ∈ common_start model_names, c = '_') := by
  refine ⟨?_, ?_, ?_, ?_, strip_sep_eq_nil_iff _⟩
  · intro hnil
    rw [model_family_name, if_pos hnil]
  · intro hnil
    rw [model_family_name, if_neg hnil]
  · cases model_names with
    | nil => exact absurd rfl h
    | cons m rest =>
        intro s hs
        rcases List.mem_cons.1 hs with rfl | hs'
        · exact (foldl_common_leads rest s).1
        · exact (foldl_common_leads rest m).2 s hs'
  · cases model_names with
    | nil => exact absurd rfl h
    | cons m rest =>
        intro p hp
        exact foldl_common_maximal rest m p (hp m (List.mem_cons_self _ _))
          (fun s hs => hp s (List.mem_cons_of_mem _ hs))

/-- C10: when the background is at least as large as the subgroup,
`balanced_subgroup_subset` returns the subgroup rows followed by a
without-replacement sample of background rows of exactly the subgroup's
size, so the result has exactly twice the subgroup's row count; when the
background is strictly smaller, it fails (returns `none`) instead of
returning a smaller or unbalanced subset. -/
theorem balanced_subgroup_subset_spec (df : List Row) :
    ((subgroup_part df).length ≤ (background_part df).length →
      balanced_subgroup_subset df =
        some (subgroup_part df ++
          (background_part df).take (subgroup_part df).length) ∧
      ((background_part df).take (subgroup_part df).length).length =
        (subgroup_part df).length ∧
      ((background_part df).take (subgroup_part df).length).Sublist
        (background_part df) ∧
      ∀ out, balanced_subgroup_subset df = some out →
        out.length = 2 * (subgroup_part df).length) ∧
    ((background_part df).length < (subgroup_part df).length →
      balanced_subgroup_subset df = none) := by
  constructor
  · intro hle
    have hsample : df_sample (background_part df) (subgroup_part df).length =
        some ((background_part df).take (subgroup_part df).length) := by
      rw [df_sample, if_pos hle]
    refine ⟨?_, ?_, List.take_sublist _ _, ?_⟩
    · rw [balanced_subgroup_subset, hsample]
    · rw [List.length_take]
      omega
    · intro out hout
      rw [balanced_subgroup_subset, hsample] at hout
      have hinj := Option.some.inj hout
      rw [← hinj, List.length_append, List.length_take]
      omega
  · intro hlt
    rw [balanced_subgroup_subset, df_sample, if_neg (by omega)]

section

attribute [local semireducible] Rat.add Rat.sub Rat.mul Rat.inv

/-- Witness for C2 on a four-row dataset hitting all five variants. -/
theorem mwu_variants_spec_witness :
    compute_within_negative_label_mwu
        [⟨9/10, true, true⟩, ⟨1/5, false, true⟩, ⟨4/5, true, false⟩,
         ⟨1/10, false, false⟩] = some (1/2) ∧
    compute_within_positive_label_mwu
        [⟨9/10, true, true⟩, ⟨1/5, false, true⟩, ⟨4/5, true, false⟩,
         ⟨1/10, false, false⟩] = some (1/2) ∧
    compute_within_subgroup_mwu
        [⟨9/10, true, true⟩, ⟨1/5, false, true⟩, ⟨4/5, true, false⟩,
         ⟨1/10, false, false⟩] = some 1 ∧
    compute_cross_subgroup_negative_mwu
        [⟨9/10, true, true⟩, ⟨1/5, false, true⟩, ⟨4/5, true, false⟩,
         ⟨1/10, false, false⟩] = some 1 ∧
    compute_cross_subgroup_positive_mwu
        [⟨9/10, true, true⟩, ⟨1/5, false, true⟩, ⟨4/5, true, false⟩,
         ⟨1/10, false, false⟩] = some 1 :=
  ⟨((mwu_variants_spec _).1.2 (by decide) (by decide)).trans (by decide),
   ((mwu_variants_spec _).2.1.2 (by decide) (by decide)).trans (by decide),
   ((mwu_variants_spec _).2.2.1.2 (by decide) (by decide)).trans (by decide),
   ((mwu_variants_spec _).2.2.2.1.2 (by decide) (by decide)).trans (by decide),
   ((mwu_variants_spec _).2.2.2.2.2 (by decide) (by decide)).trans (by decide)⟩

/-- Witness for C3: the three sub-metrics are each `1`, so the pinned AUC
is their mean, `1`. -/
theorem compute_normalized_pinned_auc_spec_witness :
    compute_normalized_pinned_auc
        [⟨9/10, true, true⟩, ⟨1/5, false, true⟩, ⟨4/5, true, false⟩,
         ⟨1/10, false, false⟩] = some 1 :=
  ((compute_normalized_pinned_auc_spec _).1 1 1 1 (by decide) (by decide)
      (by decide)).trans (by decide)

/-- Witness for C4 on a non-degenerate two-row dataset with two
thresholds. -/
theorem positive_rates_spec_witness :
    positive_rates [⟨2, true, true⟩, ⟨2, false, true⟩] [0, 1/2] =
      some ([1, 1], [1, 1]) :=
  ((positive_rates_spec [⟨2, true, true⟩, ⟨2, false, true⟩] [0, 1/2]).2.1
      (by decide)).trans (by decide)

/-- Witness for C5: on this dataset the `|FN - FP|` curve over the sweep
`[0, 1/4, 1/2, 3/4, 1]` is `2, 1, 0, 1, ...`, so the scan stops after index
`2` and returns threshold `1/2` with its confusion matrix. -/
theorem compute_equal_error_rate_spec_witness :
    compute_equal_error_rate
        [⟨1/8, false, false⟩, ⟨3/8, false, false⟩, ⟨3/5, true, false⟩] 5 =
      (some (1/2), some ⟨1, 2, 0, 0⟩) :=
  (compute_equal_error_rate_spec
      [⟨1/8, false, false⟩, ⟨3/8, false, false⟩, ⟨3/5, true, false⟩] 5 2
      (by decide) (by intro i hi; interval_cases i <;> decide)
      (by decide)).trans (by decide)

/-- Witness for C6 on a single family of two model instances with a
one-column metric table. -/
theorem diff_per_subgroup_from_overall_spec_witness :
    diff_per_subgroup_from_overall
        (fun k => if k = ['m'] then [4/5] else [])
        (fun k => if k = ['m', 'c'] then [[4/5]] else [])
        [[['m', '1'], ['m', '2']]] ['c'] true =
      some [(['m'], 0)] :=
  (diff_per_subgroup_from_overall_spec
      (fun k => if k = ['m'] then [4/5] else [])
      (fun k => if k = ['m', 'c'] then [[4/5]] else [])
      [[['m', '1'], ['m', '2']]] ['c'] true (by decide)).trans (by decide)

/-- Witness for C9: the family of names "m1", "m2" has common leading
fragment "m", which survives stripping, so the family name is "m". -/
theorem model_family_name_spec_witness :
    model_family_name [['m', '1'], ['m', '2']] = some ['m'] :=
  (((model_family_name_spec [['m', '1'], ['m', '2']] (by decide)).2.1
      (by decide))).trans (by decide)

/-- Witness for C10 on a dataset with one subgroup row and two background
rows: the result keeps the subgroup row and the first background row. -/
theorem balanced_subgroup_subset_spec_witness :
    balanced_subgroup_subset
        [⟨1, true, true⟩, ⟨0, false, false⟩, ⟨0, true, false⟩] =
      some [⟨1, true, true⟩, ⟨0, false, false⟩] :=
  ((balanced_subgroup_subset_spec
      [⟨1, true, true⟩, ⟨0, false, false⟩, ⟨0, true, false⟩]).1
      (by decide)).1.trans (by decide)

end

end ModelBias
